import Mathlib

/-!
Shallow embedding of the OAI-PMH harvesting core of `dataset_utils`
(`src/dataset_creation/data_collection/fetch_records.py`,
`list_records_download.py`, `save_records.py`).

Python `xml.etree.ElementTree` trees are modelled by `XmlTree`: an element
has a (namespace-qualified) tag, an optional text (ElementTree sets
`.text = None` for an element parsed with no text content, so an element
whose text is "absent or empty" in a parsed document has `text = none`),
and a list of children.  Python `str` values that may be `None` are
modelled as `Option String`.
-/

mutual
inductive XmlTree where
  | elem (tag : String) (text : Option String) (children : XmlForest)
inductive XmlForest where
  | nil
  | cons (t : XmlTree) (rest : XmlForest)
end

/-- Build a forest from a list of sibling elements (used to write
concrete documents with list literals). -/
def XmlForest.ofList : List XmlTree → XmlForest
  | [] => .nil
  | t :: ts => .cons t (XmlForest.ofList ts)

def XmlForest.toList : XmlForest → List XmlTree
  | .nil => []
  | .cons t ts => t :: XmlForest.toList ts

def XmlTree.tag : XmlTree → String
  | .elem t _ _ => t

def XmlTree.text : XmlTree → Option String
  | .elem _ x _ => x

def XmlTree.children : XmlTree → List XmlTree
  | .elem _ _ cs => cs.toList

/-- `element.find(tag)`: first direct child with the given tag. -/
def findChild (tg : String) (t : XmlTree) : Option XmlTree :=
  t.children.find? (fun c => c.tag = tg)

/-- `element.findall(tag)`: all direct children with the given tag,
in document order. -/
def findallChild (tg : String) (t : XmlTree) : List XmlTree :=
  t.children.filter (fun c => c.tag = tg)

mutual
/-- All descendants-or-self of an element with the given tag, in
document (pre-)order. -/
def descMatches (tg : String) : XmlTree → List XmlTree
  | XmlTree.elem t x cs =>
      (if t = tg then [XmlTree.elem t x cs] else []) ++ descForest tg cs
/-- `findall('.//' + tag)` over a forest of sibling subtrees. -/
def descForest (tg : String) : XmlForest → List XmlTree
  | .nil => []
  | .cons t ts => descMatches tg t ++ descForest tg ts
end

/-- `root.findall('.//' + tag)`: all strict descendants of `root` with the
given tag, in document order. -/
def findallDesc (tg : String) (t : XmlTree) : List XmlTree :=
  match t with
  | XmlTree.elem _ _ cs => descForest tg cs

/-- `root.find('.//' + tag)`: first strict descendant with the tag. -/
def findDesc (tg : String) (t : XmlTree) : Option XmlTree :=
  (findallDesc tg t).head?

/-! ElementTree resolves a `prefix:local` name through the `ns` dict of
the source to the qualified tag `{uri}local`; the resolved forms are
spelled out below (`\x7b`/`\x7d` are the brace characters). -/

def oaiRecordTag : String := "\x7bhttp://www.openarchives.org/OAI/2.0/\x7drecord"
def oaiMetadataTag : String := "\x7bhttp://www.openarchives.org/OAI/2.0/\x7dmetadata"
def oaiResumptionTokenTag : String := "\x7bhttp://www.openarchives.org/OAI/2.0/\x7dresumptionToken"
def oaiHeaderTag : String := "\x7bhttp://www.openarchives.org/OAI/2.0/\x7dheader"
def picoRecordTag : String := "\x7bhttp://purl.org/pico/1.0/\x7drecord"
def dcIdentifierTag : String := "\x7bhttp://purl.org/dc/elements/1.1/\x7didentifier"
def dcTitleTag : String := "\x7bhttp://purl.org/dc/elements/1.1/\x7dtitle"
def dcDescriptionTag : String := "\x7bhttp://purl.org/dc/elements/1.1/\x7ddescription"
def dcSubjectTag : String := "\x7bhttp://purl.org/dc/elements/1.1/\x7dsubject"
def dcTypeTag : String := "\x7bhttp://purl.org/dc/elements/1.1/\x7dtype"

/-! ## The record shape produced by both extractors

Both `fetch_records.py` and `list_records_download.py` build, for each
record element found, the dict
`{"identifier": identifier.text if identifier is not None else "", ...,
  "type": type_values, "subject": subject_values}`.
`identifier.text` may be Python `None` (element present, no text), so the
single-valued fields are `Option String` (`none` = Python `None`);
`type`/`subject` are always `str` (a `"; "`-join). -/

structure Record where
  identifier : Option String
  title : Option String
  description : Option String
  type : String
  subject : String
deriving Repr, DecidableEq

/-- The char-level embedding of Python `"; ".join(vs)`. -/
def joinChars : List (List Char) → List Char
  | [] => []
  | [v] => v
  | v :: w :: vs => v ++ ';' :: ' ' :: joinChars (w :: vs)

def joinSepStr (vs : List String) : String :=
  ⟨joinChars (vs.map String.data)⟩

/-- `'; '.join(e.text or "" for e in es)` — a missing text contributes
the empty string. -/
def joinTexts (es : List XmlTree) : String :=
  joinSepStr (es.map (fun e => e.text.getD ""))

/-- The per-record field extraction shared verbatim by the loop bodies of
both `fetch_records` variants (`fetch_records.py` lines 44-62,
`list_records_download.py` lines 94-112), applied to the `pico:record`
element. -/
def extractRecord (rec : XmlTree) : Record :=
  { identifier := match findChild dcIdentifierTag rec with
      | some e => e.text
      | none => some ""
    title := match findChild dcTitleTag rec with
      | some e => e.text
      | none => some ""
    description := match findChild dcDescriptionTag rec with
      | some e => e.text
      | none => some ""
    type := joinTexts (findallChild dcTypeTag rec)
    subject := joinTexts (findallChild dcSubjectTag rec) }

/-- `fetch_records.py` (flat variant): `root.findall('.//pico:record', ns)`
and one record per match. -/
def extractFlat (root : XmlTree) : List Record :=
  (findallDesc picoRecordTag root).map extractRecord

/-- `list_records_download.py` (nested variant):
`root.findall('.//oai:record', ns)`, then `record.find('oai:metadata')`,
then `metadata.find('pico:record')`; record elements lacking either
wrapper are silently skipped. -/
def extractNested (root : XmlTree) : List Record :=
  (findallDesc oaiRecordTag root).filterMap (fun r =>
    ((findChild oaiMetadataTag r).bind (findChild picoRecordTag)).map extractRecord)

/-! ## Python `value.split("; ")`

Non-overlapping, leftmost-first splitting on the two-character separator,
as `str.split` does; `"".split("; ") = [""]`. -/

def pyGlue (c : Char) : List (List Char) → List (List Char)
  | [] => [[c]]
  | h :: t => (c :: h) :: t

def pySplit2 : List Char → List (List Char)
  | [] => [[]]
  | [c] => [[c]]
  | c :: d :: rest =>
      if c = ';' ∧ d = ' ' then [] :: pySplit2 rest
      else pyGlue c (pySplit2 (d :: rest))

def pySplitStr (s : String) : List String :=
  (pySplit2 s.data).map (fun l => ⟨l⟩)

/-- `true` iff the separator `"; "` occurs in the character list. -/
def hasSepB : List Char → Bool
  | [] => false
  | c :: rest => (c = ';' && rest.head? == some ' ') || hasSepB rest

/-! ## Pagination engine (`list_records_download.py`, `fetch_records`) -/

/-- The query-parameter dict built by `fetch_records`.  Only the keys the
code ever sets are modelled. -/
structure Params where
  verb : String
  set : Option String
  metadataPrefix : Option String
  resumptionToken : Option String
deriving Repr, DecidableEq

/-- An HTTP response whose body has already been parsed
(`ET.fromstring`); the claims under study never exercise the
malformed-body path, so the body is a tree. -/
structure HttpResponse where
  status : Nat
  body : XmlTree

/-- `sys.exit(1)` after a failed check, modelled as a typed error as the
spec prescribes. -/
inductive HarvestError where
  | httpStatus (code : Nat)
deriving Repr, DecidableEq

/-- Successful result: records for `ListRecords`, the raw parsed tree for
every other verb. -/
inductive FetchOk where
  | records (rs : List Record)
  | raw (t : XmlTree)

/-- Python truthiness of an optional string (`None` and `""` are falsy). -/
def pyTruthy : Option String → Bool
  | none => false
  | some s => s ≠ ""

/-- Python truthiness of the optional integer `test_limit`
(`None` and `0` are falsy). -/
def limitActive : Option Int → Bool
  | none => false
  | some k => k ≠ 0

/-- The per-record accumulation of the extraction loop: records are
appended one at a time; after each append, if `test_limit` is truthy and
`len(records) >= test_limit`, the whole fetch returns immediately
(`Bool` = a `return records` was taken). -/
def accumulate (limit : Option Int) : List Record → List Record → List Record × Bool
  | acc, [] => (acc, false)
  | acc, r :: rs =>
      let acc' := acc ++ [r]
      if limitActive limit ∧ (acc'.length : Int) ≥ limit.getD 0 then (acc', true)
      else accumulate limit acc' rs

/-- `root.find('.//oai:resumptionToken', ns)` followed by the check
`if resumption_token is None or resumption_token.text is None: break`:
the loop continues only when the element exists and has text. -/
def tokenOf (root : XmlTree) : Option String :=
  match findDesc oaiResumptionTokenTag root with
  | none => none
  | some e => e.text

/-- The `while True:` loop of `fetch_records`
(`list_records_download.py` lines 75-136), instrumented with the list of
issued requests and made total with a fuel argument (`none` = the fuel
ran out before the loop finished). -/
def harvestLoop (server : Params → HttpResponse) (limit : Option Int) :
    Nat → Params → List Record → Option (List Params × Except HarvestError FetchOk)
  | 0, _, _ => none
  | Nat.succ fuel, p, acc =>
      if (server p).status ≠ 200 then
        some ([p], .error (.httpStatus (server p).status))
      else if p.verb = "ListRecords" then
        match accumulate limit acc (extractNested (server p).body) with
        | (acc', true) => some ([p], .ok (.records acc'))
        | (acc', false) =>
            match tokenOf (server p).body with
            | none => some ([p], .ok (.records acc'))
            | some t =>
                match harvestLoop server limit fuel
                    ⟨"ListRecords", none, none, some t⟩ acc' with
                | none => none
                | some (ps, r) => some (p :: ps, r)
      else some ([p], .ok (.raw (server p).body))

/-- The initial parameter dict built at the top of `fetch_records`:
`set` and `metadataPrefix` are added only when truthy and the verb is
`ListRecords`/`ListIdentifiers`. -/
def initParams (verb : String) (setName : Option String)
    (metadataPrefix : String) : Params :=
  { verb
    set := if pyTruthy setName ∧ (verb = "ListRecords" ∨ verb = "ListIdentifiers")
      then setName else none
    metadataPrefix :=
      if pyTruthy (some metadataPrefix) ∧ (verb = "ListRecords" ∨ verb = "ListIdentifiers")
      then some metadataPrefix else none
    resumptionToken := none }

/-- `fetch_records(endpoint, verb, set_name, metadata_prefix, test_limit)`
against an abstract server (the transport composed with the parse). -/
def fetchRecords (server : Params → HttpResponse) (verb : String)
    (setName : Option String) (metadataPrefix : String) (testLimit : Option Int)
    (fuel : Nat) : Option (List Params × Except HarvestError FetchOk) :=
  harvestLoop server testLimit fuel (initParams verb setName metadataPrefix) []

/-! ## CSV serializers

`csv.DictWriter` semantics: `writeheader` writes the fieldnames row;
`writerow(d)` raises `ValueError` when `d` has a key outside
`fieldnames` (the default `extrasaction='raise'`), and renders `None`
as the empty cell.  A row is modelled as its list of cell strings. -/

def recordDict (r : Record) : List (String × Option String) :=
  [("identifier", r.identifier), ("title", r.title),
   ("description", r.description), ("type", some r.type),
   ("subject", some r.subject)]

def csvCell : Option String → String
  | none => ""
  | some s => s

def dictWriterRow (fieldnames : List String) (r : Record) :
    Except String (List String) :=
  if (recordDict r).all (fun kv => fieldnames.contains kv.1) then
    .ok (fieldnames.map (fun f => csvCell (((recordDict r).lookup f).getD none)))
  else .error "dict contains fields not in fieldnames"

def writeRows (fieldnames : List String) : List Record → Except String (List (List String))
  | [] => .ok []
  | r :: rs => do
      let row ← dictWriterRow fieldnames r
      let rest ← writeRows fieldnames rs
      .ok (row :: rest)

/-- The fieldnames of `save_to_csv` in `list_records_download.py`
(line 148). -/
def fieldnamesLRD : List String :=
  ["identifier", "title", "description", "type", "subject"]

/-- The fieldnames of `save_to_csv` in `save_records.py` (line 47). -/
def fieldnamesSR : List String :=
  ["title", "description", "type", "subject"]

/-- `save_to_csv` of `list_records_download.py`: header row then one row
per record; an exception is caught and turns into `sys.exit(1)`
(modelled as the error). -/
def saveToCsvLRD (records : List Record) : Except String (List (List String)) :=
  (writeRows fieldnamesLRD records).map (fieldnamesLRD :: ·)

/-- `save_to_csv` of `save_records.py`: same, with its own fieldnames. -/
def saveToCsvSR (records : List Record) : Except String (List (List String)) :=
  (writeRows fieldnamesSR records).map (fieldnamesSR :: ·)

/-! ## XML serializer (`save_to_xml`, identical in `save_records.py` and
`list_records_download.py`) -/

/-- The children built for one record element: the dict is iterated in
insertion order; for `type`/`subject` a truthy (non-empty) value is split
on `"; "` into one child per piece, otherwise a single child carries the
value as its text (`None` stays `None`, `""` stays `""`). -/
def recordChildren (r : Record) : List XmlTree :=
  [XmlTree.elem "identifier" r.identifier .nil,
   XmlTree.elem "title" r.title .nil,
   XmlTree.elem "description" r.description .nil]
  ++ (if r.type ≠ "" then
        (pySplitStr r.type).map (fun v => XmlTree.elem "type" (some v) .nil)
      else [XmlTree.elem "type" (some r.type) .nil])
  ++ (if r.subject ≠ "" then
        (pySplitStr r.subject).map (fun v => XmlTree.elem "subject" (some v) .nil)
      else [XmlTree.elem "subject" (some r.subject) .nil])

/-- The tree built by `save_to_xml`: root `ListRecords`, one `record`
child per record. -/
def xmlRootOf (records : List Record) : XmlTree :=
  XmlTree.elem "ListRecords" none
    (XmlForest.ofList (records.map (fun r =>
      XmlTree.elem "record" none (XmlForest.ofList (recordChildren r)))))

/-- Left-to-right, non-overlapping replacement of a non-empty needle, as
Python `str.replace` performs it.  The fuel starts at the length of the
subject and is ample: every step consumes at least one character. -/
def replChars : Nat → List Char → List Char → List Char → List Char
  | 0, _, _, s => s
  | _, _, _, [] => []
  | Nat.succ fl, old, new, c :: rest =>
      if old.isPrefixOf (c :: rest) then
        new ++ replChars fl old new (List.drop (old.length - 1) rest)
      else c :: replChars fl old new rest

def pyReplace (s old new : String) : String :=
  ⟨replChars s.data.length old.data new.data s.data⟩

/-- `xml.dom.minidom`'s text escaping (`_write_data`). -/
def escapeXml (s : String) : String :=
  pyReplace (pyReplace (pyReplace (pyReplace s "&" "&amp;") "<" "&lt;") "\"" "&quot;") ">" "&gt;"

/-- One element of `minidom.toprettyxml(indent="  ")` output, for the
shapes produced by the `ET.tostring`/`parseString` round trip of
`save_to_xml`'s trees: an element whose only child is a text node is
written inline; an element with no text and no children is written
self-closing; otherwise children go on their own indented lines.
(A tree element with `text = some ""` serializes through `ET.tostring`
exactly like `text = None`, hence the first branch.) -/
def prettyLeaf (ind : String) (tg : String) (txt : Option String) : String :=
  match txt with
  | none => ind ++ "<" ++ tg ++ "/>\n"
  | some s =>
      if s = "" then ind ++ "<" ++ tg ++ "/>\n"
      else ind ++ "<" ++ tg ++ ">" ++ escapeXml s ++ "</" ++ tg ++ ">\n"

mutual
def prettyTree : String → XmlTree → String
  | ind, XmlTree.elem tg txt .nil => prettyLeaf ind tg txt
  | ind, XmlTree.elem tg _ (.cons c cs) =>
      ind ++ "<" ++ tg ++ ">\n" ++ prettyForest (ind ++ "  ") (.cons c cs)
        ++ ind ++ "</" ++ tg ++ ">\n"
def prettyForest : String → XmlForest → String
  | _, .nil => ""
  | ind, .cons t ts => prettyTree ind t ++ prettyForest ind ts
end

/-- `parseString(...).toprettyxml(indent="  ")`: with no `encoding`
argument, minidom writes the declaration `<?xml version="1.0" ?>`. -/
def toPrettyXml (root : XmlTree) : String :=
  "<?xml version=\"1.0\" ?>\n" ++ prettyTree "" root

/-- The needle and replacement of the stylesheet insertion in
`save_to_xml`. -/
def xmlDeclNeedle : String := "<?xml version=\"1.0\" encoding=\"UTF-8\"?>"

def stylesheetDecl (stylesheet : String) : String :=
  "<?xml-stylesheet type=\"text/xsl\" href=\"" ++ stylesheet ++ "\"?>\n"

/-- `save_to_xml`: build the tree, pretty-print it, and, when a
stylesheet is supplied, `str.replace` the UTF-8 declaration with the
declaration followed by the stylesheet processing instruction.  Returns
the string written to the output file. -/
def saveToXmlStr (records : List Record) (stylesheet : Option String) : String :=
  let pretty := toPrettyXml (xmlRootOf records)
  match stylesheet with
  | none => pretty
  | some ss =>
      pyReplace pretty xmlDeclNeedle (xmlDeclNeedle ++ "\n" ++ stylesheetDecl ss)

/-! ## Spec-level record shape (sequences, as in the spec data model),
used for the round-trip claims -/

structure SpecRecord where
  identifier : String
  title : String
  description : String
  type : List String
  subject : List String
deriving Repr, DecidableEq

/-- The stored (code-level) form of a spec record: the extractor keeps
single-valued fields as text and joins the multi-valued sequences with
`"; "`. -/
def toCode (sr : SpecRecord) : Record :=
  { identifier := some sr.identifier
    title := some sr.title
    description := some sr.description
    type := joinSepStr sr.type
    subject := joinSepStr sr.subject }

/-- All texts of like-named children, in document order (a missing text
reads as the empty string, as in the extractor). -/
def childTexts (tg : String) (cs : List XmlTree) : List String :=
  (cs.filter (fun c => c.tag = tg)).map (fun e => e.text.getD "")

/-- Re-extraction of a spec record from the children of a serialized
`record` element: first like-named child's text for the single-valued
fields, the sequence of like-named children's texts for `type` and
`subject`. -/
def reExtractSpec (cs : List XmlTree) : SpecRecord :=
  { identifier := (((cs.find? (fun c => c.tag = "identifier")).bind XmlTree.text).getD "")
    title := (((cs.find? (fun c => c.tag = "title")).bind XmlTree.text).getD "")
    description := (((cs.find? (fun c => c.tag = "description")).bind XmlTree.text).getD "")
    type := childTexts "type" cs
    subject := childTexts "subject" cs }

/-! ## Control chain of the pagination loop (for the termination claim) -/

/-- One control step of the `ListRecords` loop with no record limit: the
next request's parameters, or `none` when the loop stops (non-200
response, or no continuable resumption token). -/
def ctrlNext (server : Params → HttpResponse) (p : Params) : Option Params :=
  let resp := server p
  if resp.status ≠ 200 then none
  else
    match tokenOf resp.body with
    | none => none
    | some t => some ⟨"ListRecords", none, none, some t⟩

/-- Iterate `ctrlNext`; `none` once the loop has stopped within the given
number of steps. -/
def ctrlIter (server : Params → HttpResponse) : Nat → Params → Option Params
  | 0, p => some p
  | Nat.succ n, p =>
      match ctrlNext server p with
      | none => none
      | some q => ctrlIter server n q

/-- Total number of records extracted from the pages fetched by a list of
requests (used to express "no request is issued after the cap"). -/
def pageRecords (server : Params → HttpResponse) (ps : List Params) : Nat :=
  (ps.map (fun p => (extractNested (server p).body).length)).sum

/-! ## Concrete documents and servers used in the witnesses and
counterexamples -/

def forestOf : List XmlTree → XmlForest := XmlForest.ofList

/-- A fully populated `pico:record` element. -/
def picoFull : XmlTree :=
  .elem picoRecordTag none (forestOf
    [ .elem dcIdentifierTag (some "id1") .nil,
      .elem dcTitleTag (some "T") .nil,
      .elem dcDescriptionTag (some "D") .nil,
      .elem dcSubjectTag (some "Art") .nil,
      .elem dcSubjectTag (some "History") .nil,
      .elem dcTypeTag (some "A") .nil ])

/-- A `pico:record` whose only child is `<dc:title></dc:title>`: the
element is present but, as parsed by ElementTree, its text is `None`. -/
def picoNoText : XmlTree :=
  .elem picoRecordTag none (forestOf [ .elem dcTitleTag none .nil ])

/-- A `pico:record` with no children at all. -/
def picoBare : XmlTree := .elem picoRecordTag none .nil

/-- A flat-schema response: the record sits under `ListRecords` with no
`oai:record`/`oai:metadata` wrapping. -/
def flatWrap (r : XmlTree) : XmlTree :=
  .elem "OAI-PMH" none (forestOf [ .elem "ListRecords" none (forestOf [r]) ])

/-- A nested-schema response: the record is wrapped in
`oai:record`/`oai:metadata`. -/
def nestedWrap (r : XmlTree) : XmlTree :=
  .elem "OAI-PMH" none (forestOf
    [ .elem "ListRecords" none (forestOf
        [ .elem oaiRecordTag none (forestOf
            [ .elem oaiHeaderTag none .nil,
              .elem oaiMetadataTag none (forestOf [r]) ]) ]) ])

/-- Page 1 of the spec's pagination scenario: two (nested-schema) records
and resumption token `"T1"`. -/
def page1 : XmlTree :=
  .elem "OAI-PMH" none (forestOf
    [ .elem "ListRecords" none (forestOf
        [ .elem oaiRecordTag none (forestOf [.elem oaiMetadataTag none (forestOf [picoFull])]),
          .elem oaiRecordTag none (forestOf [.elem oaiMetadataTag none (forestOf [picoFull])]),
          .elem oaiResumptionTokenTag (some "T1") .nil ]) ])

/-- Page 2 of the scenario: one record and no resumption token. -/
def page2 : XmlTree :=
  .elem "OAI-PMH" none (forestOf
    [ .elem "ListRecords" none (forestOf
        [ .elem oaiRecordTag none (forestOf [.elem oaiMetadataTag none (forestOf [picoFull])]) ]) ])

/-- The endpoint of the scenario: first request gets page 1, any request
carrying a resumption token gets page 2. -/
def twoPageServer (p : Params) : HttpResponse :=
  match p.resumptionToken with
  | none => ⟨200, page1⟩
  | some _ => ⟨200, page2⟩

/-- The record both extractors read off `picoFull`. -/
def fullRecord : Record := ⟨some "id1", some "T", some "D", "A", "Art; History"⟩

/-- An endpoint that answers every request with HTTP 500. -/
def failingServer (_ : Params) : HttpResponse :=
  ⟨500, .elem "html" none .nil⟩

/-- An endpoint that answers every request with the same page carrying
the resumption token `"T1"` and no records: one distinct token, repeated
forever. -/
def repeatingServer (_ : Params) : HttpResponse :=
  ⟨200, .elem "OAI-PMH" none (forestOf
    [ .elem "ListRecords" none (forestOf
        [ .elem oaiResumptionTokenTag (some "T1") .nil ]) ])⟩

/-- The initial `ListRecords` request parameters used by the concrete
scenarios. -/
def startParams : Params := initParams "ListRecords" (some "S") "pico"

/-- The parameters of every follow-up request of the concrete two-page
scenario. -/
def followupT1 : Params := ⟨"ListRecords", none, none, some "T1"⟩

/-- The `ListRecords` + save-as-CSV path of `main`
(`list_records_download.py` lines 262-271): the rows written to the
output file, or `none` when the harvest aborted (or ran out of fuel)
before any file was produced. -/
def mainListRecordsCsv (server : Params → HttpResponse) (setName : Option String)
    (limit : Option Int) (fuel : Nat) : Option (List (List String)) :=
  match fetchRecords server "ListRecords" setName "pico" limit fuel with
  | some (_, .ok (.records rs)) =>
      match saveToCsvLRD rs with
      | .ok rows => some rows
      | .error _ => none
  | _ => none

/-- The record of the unit test `src/tests/test_save_records.py`. -/
def testRecord1 : Record :=
  ⟨some "1", some "Title 1", some "Description 1", "Type1; Type2", "Subject1; Subject2"⟩

/-- A record with every field populated and singleton multi-values. -/
def simpleRecord : Record := ⟨some "1", some "T", some "D", "A", "S"⟩

/-! # Helper lemmas -/

theorem accumulate_none (acc new : List Record) :
    accumulate none acc new = (acc ++ new, false) := by
  induction new generalizing acc with
  | nil => simp [accumulate]
  | cons r rs ih => simp [accumulate, limitActive, ih]

theorem harvestLoop_trace_ne_nil (server : Params → HttpResponse)
    (limit : Option Int) (fuel : Nat) (p : Params) (acc : List Record)
    (ps : List Params) (res : Except HarvestError FetchOk)
    (h : harvestLoop server limit fuel p acc = some (ps, res)) : ps ≠ [] := by
  cases fuel with
  | zero => simp [harvestLoop] at h
  | succ n =>
      rw [harvestLoop] at h
      split at h
      · simp at h; exact h.1 ▸ (by simp)
      · split at h
        · split at h
          · simp at h; exact h.1 ▸ (by simp)
          · split at h
            · simp at h; exact h.1 ▸ (by simp)
            · split at h
              · simp at h
              · simp at h; exact h.1 ▸ (by simp)
        · simp at h; exact h.1 ▸ (by simp)

/-- Step lemma: a non-200 response aborts with the status error. -/
theorem harvestLoop_step_error (server : Params → HttpResponse)
    (limit : Option Int) (n : Nat) (p : Params) (acc : List Record)
    (hst : (server p).status ≠ 200) :
    harvestLoop server limit (n + 1) p acc =
      some ([p], .error (.httpStatus (server p).status)) := by
  rw [harvestLoop, if_pos hst]

/-- Step lemma: a 200 page whose token is absent or text-less ends the
run with everything accumulated so far (no record cap). -/
theorem harvestLoop_step_last (server : Params → HttpResponse) (n : Nat)
    (p : Params) (acc : List Record) (hst : ¬(server p).status ≠ 200)
    (hv : p.verb = "ListRecords") (htok : tokenOf (server p).body = none) :
    harvestLoop server none (n + 1) p acc =
      some ([p], .ok (.records (acc ++ extractNested (server p).body))) := by
  rw [harvestLoop, if_neg hst, if_pos hv, accumulate_none, htok]

/-- Step lemma: a 200 page carrying a token recurses with exactly
`{verb: "ListRecords", resumptionToken: token}` (no record cap). -/
theorem harvestLoop_step_token (server : Params → HttpResponse) (n : Nat)
    (p : Params) (acc : List Record) (t : String)
    (hst : ¬(server p).status ≠ 200) (hv : p.verb = "ListRecords")
    (htok : tokenOf (server p).body = some t) :
    harvestLoop server none (n + 1) p acc =
      match harvestLoop server none n ⟨"ListRecords", none, none, some t⟩
          (acc ++ extractNested (server p).body) with
      | none => none
      | some (ps, r) => some (p :: ps, r) := by
  rw [harvestLoop, if_neg hst, if_pos hv, accumulate_none, htok]

/-! # C10 -/

/-- C10: for every record whose `type` (resp. `subject`) value is the
empty string, `save_to_xml` emits exactly one child element of that name
with empty text under the record, never zero elements. -/
theorem xml_empty_multivalued_single_child (r : Record) :
    (r.type = "" →
      (recordChildren r).filter (fun c => c.tag = "type")
        = [XmlTree.elem "type" (some "") .nil]) ∧
    (r.subject = "" →
      (recordChildren r).filter (fun c => c.tag = "subject")
        = [XmlTree.elem "subject" (some "") .nil]) := by
  constructor
  · intro h
    by_cases hs : r.subject = "" <;>
      simp [recordChildren, h, hs, XmlTree.tag, List.filter_map]
  · intro h
    by_cases ht : r.type = "" <;>
      simp [recordChildren, h, ht, XmlTree.tag, List.filter_map]

/-- Witness for C10 at a concrete record with empty `type`. -/
theorem xml_empty_multivalued_single_child_w :
    (recordChildren ⟨some "1", some "T", some "D", "", "S"⟩).filter
        (fun c => c.tag = "type") = [XmlTree.elem "type" (some "") .nil] :=
  (xml_empty_multivalued_single_child ⟨some "1", some "T", some "D", "", "S"⟩).1 rfl

/-! # C5 -/

/-- C5: evaluation of both CSV serializers at the record of the module's
own unit test.  `save_to_csv` in `list_records_download.py` writes the
claimed five-column header and row; `save_to_csv` in `save_records.py`
declares only four fieldnames (`identifier` is missing), so `writerow`
on an identifier-bearing record raises `ValueError` and the function
aborts — contradicting the claim and the module's own test input. -/
theorem save_records_csv_missing_identifier :
    saveToCsvSR [testRecord1] = .error "dict contains fields not in fieldnames" ∧
    saveToCsvLRD [testRecord1] =
      .ok [["identifier", "title", "description", "type", "subject"],
           ["1", "Title 1", "Description 1", "Type1; Type2", "Subject1; Subject2"]] :=
  ⟨rfl, rfl⟩

/-! # C7 -/

set_option maxRecDepth 8000 in
/-- C7: evaluation of `save_to_xml` at a concrete record with a supplied
stylesheet.  The output declaration is `<?xml version="1.0" ?>` (minidom
is given no `encoding` argument), not `<?xml version="1.0"
encoding="UTF-8" ?>`, and the `str.replace` that should insert the
`xml-stylesheet` processing instruction searches for the UTF-8
declaration, which never occurs — so supplying a stylesheet has no
effect at all on the output. -/
theorem save_to_xml_decl_and_stylesheet :
    saveToXmlStr [simpleRecord] (some "style.xsl") =
      "<?xml version=\"1.0\" ?>\n<ListRecords>\n  <record>\n    <identifier>1</identifier>\n    <title>T</title>\n    <description>D</description>\n    <type>A</type>\n    <subject>S</subject>\n  </record>\n</ListRecords>\n" ∧
    saveToXmlStr [simpleRecord] (some "style.xsl") = saveToXmlStr [simpleRecord] none :=
  ⟨rfl, rfl⟩

/-! # C9 -/

/-- C9: a harvest whose first request returns a non-success HTTP status
fails immediately with `HttpStatusError` carrying that status code,
after exactly one request, returning no records; the `main` save path
then writes no output file. -/
theorem http_error_aborts (server : Params → HttpResponse) (verb : String)
    (setName : Option String) (mp : String) (limit : Option Int) (fuel : Nat)
    (h : (server (initParams verb setName mp)).status ≠ 200) (hf : 1 ≤ fuel) :
    fetchRecords server verb setName mp limit fuel =
      some ([initParams verb setName mp],
            .error (.httpStatus (server (initParams verb setName mp)).status)) ∧
    (verb = "ListRecords" → mp = "pico" →
      mainListRecordsCsv server setName limit fuel = none) := by
  obtain ⟨n, rfl⟩ : ∃ n, fuel = n + 1 := ⟨fuel - 1, by omega⟩
  have h1 : fetchRecords server verb setName mp limit (n + 1) =
      some ([initParams verb setName mp],
            .error (.httpStatus (server (initParams verb setName mp)).status)) := by
    rw [fetchRecords, harvestLoop, if_pos h]
  refine ⟨h1, fun hv hmp => ?_⟩
  subst hv hmp
  rw [mainListRecordsCsv, h1]

/-- Witness for C9: a server answering HTTP 500 to everything. -/
theorem http_error_aborts_w :
    fetchRecords failingServer "ListRecords" (some "S") "pico" none 5 =
      some ([startParams], .error (.httpStatus 500)) ∧
    mainListRecordsCsv failingServer (some "S") none 5 = none := by
  have h := http_error_aborts failingServer "ListRecords" (some "S") "pico" none 5
    (by decide) (by norm_num)
  exact ⟨h.1, h.2 rfl rfl⟩

/-! # C1 -/

/-- Counterexample to C1 as stated: a response containing a record whose
`dc:title` element is present but has no text (`<dc:title></dc:title>`,
parsed text `None`).  The extractor stores Python `None` — not the empty
string — in the `title` field, so a field of an emitted Record can be
null. -/
theorem extractor_null_title_counterexample :
    (extractFlat (flatWrap picoNoText)).map Record.title = [none] ∧
    (none : Option String) ≠ some "" :=
  ⟨rfl, by decide⟩

/-- C1 (amended): every found record element yields exactly one Record
(the extractor never raises and the nested extractor at most skips
wrapper-less records); `identifier`/`title`/`description` default to the
empty string when the element is absent, but carry the element's text
verbatim when it is present (which is `None` for a present, text-less
element); `type`/`subject` are `"; "`-joined strings that are empty when
no such elements exist. -/
theorem extractor_field_defaults (t rec : XmlTree) :
    (extractFlat t).length = (findallDesc picoRecordTag t).length ∧
    (extractNested t).length ≤ (findallDesc oaiRecordTag t).length ∧
    (findChild dcIdentifierTag rec = none → (extractRecord rec).identifier = some "") ∧
    (findChild dcTitleTag rec = none → (extractRecord rec).title = some "") ∧
    (findChild dcDescriptionTag rec = none → (extractRecord rec).description = some "") ∧
    (findallChild dcTypeTag rec = [] → (extractRecord rec).type = "") ∧
    (findallChild dcSubjectTag rec = [] → (extractRecord rec).subject = "") ∧
    (∀ e, findChild dcTitleTag rec = some e → (extractRecord rec).title = e.text) := by
  refine ⟨by simp [extractFlat], by simpa [extractNested] using List.length_filterMap_le _ _,
    ?_, ?_, ?_, ?_, ?_, ?_⟩ <;> intro h
  · simp [extractRecord, h]
  · simp [extractRecord, h]
  · simp [extractRecord, h]
  · simp [extractRecord, h, joinTexts, joinSepStr, joinChars]
  · simp [extractRecord, h, joinTexts, joinSepStr, joinChars]
  · intro he; simp [extractRecord, he]

/-- Witness for C1 (amended) at a record element with no children. -/
theorem extractor_field_defaults_w :
    (extractRecord picoBare).identifier = some "" ∧
    (extractRecord picoBare).type = "" :=
  ⟨(extractor_field_defaults picoBare picoBare).2.2.1 rfl,
   (extractor_field_defaults picoBare picoBare).2.2.2.2.2.1 rfl⟩

/-! # C8 -/

/-- Counterexample to C8 as stated: on a flat-schema response the
extractor of `list_records_download.py` yields nothing (there is no
second, nested-path attempt — nor any flat-path-then-nested-path trial
lookup anywhere), although the response does contain a record, as the
other file's extractor shows. -/
theorem no_trial_lookup_counterexample :
    extractNested (flatWrap picoFull) = [] ∧
    extractFlat (flatWrap picoFull) = [fullRecord] :=
  ⟨rfl, rfl⟩

/-- C8 (amended): there is no two-stage trial lookup; instead,
`fetch_records.py`'s single descendant query `.//pico:record` matches the
record element of both the flat and the nested response shape, while
`list_records_download.py`'s extractor recognises only the nested shape
and yields nothing on a flat response. -/
theorem schema_variants_no_trial (r : XmlTree) (hr : r.tag = picoRecordTag)
    (hp : findallDesc picoRecordTag r = [])
    (ho : findallDesc oaiRecordTag r = []) :
    extractFlat (flatWrap r) = [extractRecord r] ∧
    extractFlat (nestedWrap r) = [extractRecord r] ∧
    extractNested (nestedWrap r) = [extractRecord r] ∧
    extractNested (flatWrap r) = [] := by
  obtain ⟨tg, tx, cs⟩ := r
  simp only [XmlTree.tag] at hr
  subst hr
  simp only [findallDesc, picoRecordTag, oaiRecordTag] at hp ho
  refine ⟨?_, ?_, ?_, ?_⟩ <;>
    simp [extractFlat, extractNested, flatWrap, nestedWrap, forestOf,
      XmlForest.ofList, findallDesc, descForest, descMatches, hp, ho,
      picoRecordTag, oaiRecordTag, oaiMetadataTag, oaiHeaderTag,
      findChild, XmlTree.children, XmlForest.toList, XmlTree.tag, List.find?]

/-- Witness for C8 (amended) at the concrete sample record element. -/
theorem schema_variants_no_trial_w :
    extractFlat (flatWrap picoFull) = [extractRecord picoFull] ∧
    extractFlat (nestedWrap picoFull) = [extractRecord picoFull] ∧
    extractNested (nestedWrap picoFull) = [extractRecord picoFull] ∧
    extractNested (flatWrap picoFull) = [] :=
  schema_variants_no_trial picoFull rfl rfl rfl
/-! # C6 -/

/-- Counterexample to C6 as stated: a record whose `type` sequence is
empty (and whose values are all free of `"; "`).  The serializer emits a
single empty `type` tag, so re-extraction yields `[""]`, not `[]`. -/
theorem roundtrip_empty_seq_counterexample :
    reExtractSpec (recordChildren (toCode ⟨"i", "t", "d", [], ["Art"]⟩)) ≠
      ⟨"i", "t", "d", [], ["Art"]⟩ ∧
    reExtractSpec (recordChildren (toCode ⟨"i", "t", "d", [], ["Art"]⟩)) =
      ⟨"i", "t", "d", [""], ["Art"]⟩ :=
  ⟨by decide, by decide⟩

theorem stringMkData (s : String) : String.mk s.data = s := by
  cases s
  rfl

theorem hasSepB_cons_false {c : Char} {rest : List Char}
    (h : hasSepB (c :: rest) = false) :
    ((c = ';' && rest.head? == some ' ') = false) ∧ hasSepB rest = false := by
  rw [hasSepB] at h
  exact Bool.or_eq_false_iff.mp h

/-- Splitting a separator-free word returns the word alone. -/
theorem pySplit2_clean (v : List Char) (h : hasSepB v = false) :
    pySplit2 v = [v] := by
  induction v with
  | nil => rfl
  | cons c rest ih =>
      obtain ⟨h1, h2⟩ := hasSepB_cons_false h
      cases rest with
      | nil => rfl
      | cons d rest' =>
          have hneg : ¬(c = ';' ∧ d = ' ') := by
            rintro ⟨rfl, rfl⟩
            simp at h1
          rw [pySplit2.eq_3, if_neg hneg, ih h2]
          rfl

/-- Splitting past a separator-free word finds the separator exactly at
the word boundary. -/
theorem pySplit2_glue (v rest : List Char) (h : hasSepB v = false) :
    pySplit2 (v ++ ';' :: ' ' :: rest) = v :: pySplit2 rest := by
  induction v with
  | nil =>
      rw [List.nil_append, pySplit2.eq_3, if_pos ⟨rfl, rfl⟩]
  | cons c v' ih =>
      obtain ⟨h1, h2⟩ := hasSepB_cons_false h
      cases v' with
      | nil =>
          have hneg : ¬(c = ';' ∧ (';' : Char) = ' ') := by
            rintro ⟨-, hcc⟩
            exact absurd hcc (by decide)
          rw [List.cons_append, List.nil_append, pySplit2.eq_3, if_neg hneg,
              pySplit2.eq_3, if_pos ⟨rfl, rfl⟩]
          rfl
      | cons e v'' =>
          have hneg : ¬(c = ';' ∧ e = ' ') := by
            rintro ⟨rfl, rfl⟩
            simp at h1
          have ih' := ih h2
          rw [List.cons_append] at ih'
          rw [List.cons_append, List.cons_append, pySplit2.eq_3, if_neg hneg]
          rw [ih']
          rfl

/-- `"; ".join` followed by `.split("; ")` is the identity on non-empty
lists of separator-free words. -/
theorem pySplit2_joinChars (vs : List (List Char)) (hne : vs ≠ [])
    (hc : ∀ v ∈ vs, hasSepB v = false) :
    pySplit2 (joinChars vs) = vs := by
  induction vs with
  | nil => exact absurd rfl hne
  | cons v vs' ih =>
      cases vs' with
      | nil => exact pySplit2_clean v (hc v (by simp))
      | cons w t =>
          rw [joinChars.eq_3, pySplit2_glue v _ (hc v (by simp))]
          rw [ih (by simp) (fun u hu => hc u (by simp [hu]))]

theorem joinChars_eq_nil {vs : List (List Char)} (h : joinChars vs = []) :
    vs = [] ∨ vs = [[]] := by
  match vs with
  | [] => exact Or.inl rfl
  | [v] => rw [joinChars.eq_2] at h; exact Or.inr (by rw [h])
  | v :: w :: t => rw [joinChars.eq_3] at h; simp at h

/-- String-level version of the split/join round trip. -/
theorem pySplitStr_joinSepStr (vs : List String) (hne : vs ≠ [])
    (hc : ∀ v ∈ vs, hasSepB v.data = false) :
    pySplitStr (joinSepStr vs) = vs := by
  rw [pySplitStr, joinSepStr]
  rw [show (String.mk (joinChars (vs.map String.data))).data
      = joinChars (vs.map String.data) from rfl]
  rw [pySplit2_joinChars (vs.map String.data) (by simpa using hne)
    (by
      intro v hv
      obtain ⟨s, hs, rfl⟩ := List.mem_map.mp hv
      exact hc s hs)]
  simp [List.map_map, Function.comp_def, stringMkData]

theorem joinSepStr_eq_empty {vs : List String} (h : joinSepStr vs = "") :
    vs = [] ∨ vs = [""] := by
  have hd : joinChars (vs.map String.data) = [] := by
    simpa using congrArg String.data h
  rcases joinChars_eq_nil hd with h1 | h1
  · exact Or.inl (by simpa using h1)
  · rcases vs with _ | ⟨s, _ | ⟨t, rest⟩⟩
    · simp at h1
    · right
      have hsd : s.data = [] := by simpa using h1
      have hmk := congrArg String.mk hsd
      rw [stringMkData] at hmk
      rw [hmk]
    · simp at h1

/-- What `save_to_xml` followed by re-extraction does to an arbitrary
stored record: single-valued fields come back as their text (`None`
reading as `""`), and each multi-valued field comes back as the split of
its joined string — `[""]` when the stored string was empty. -/
theorem reExtract_children (r : Record) :
    reExtractSpec (recordChildren r) =
      { identifier := r.identifier.getD ""
        title := r.title.getD ""
        description := r.description.getD ""
        type := if r.type = "" then [""] else pySplitStr r.type
        subject := if r.subject = "" then [""] else pySplitStr r.subject } := by
  by_cases h1 : r.type = "" <;> by_cases h2 : r.subject = "" <;>
    simp [recordChildren, reExtractSpec, childTexts, h1, h2,
      XmlTree.tag, XmlTree.text, List.filter_append, List.filter_map,
      List.find?, Function.comp_def]

/-- C6 (amended): for records whose multi-valued fields are *non-empty*
sequences of values free of the sub-delimiter `"; "`, serializing to XML
(one repeated child tag per sequence element) and re-extracting yields
field-for-field equality with the original record; an empty sequence,
however, re-extracts as `[""]`. -/
theorem roundtrip_nonempty (sr : SpecRecord)
    (ht : sr.type ≠ []) (hs : sr.subject ≠ [])
    (hct : ∀ v ∈ sr.type, hasSepB v.data = false)
    (hcs : ∀ v ∈ sr.subject, hasSepB v.data = false) :
    reExtractSpec (recordChildren (toCode sr)) = sr := by
  obtain ⟨si, stl, sd, sty, ssu⟩ := sr
  rw [toCode, reExtract_children]
  simp only
  have htype : (if joinSepStr sty = "" then [""] else pySplitStr (joinSepStr sty)) = sty := by
    by_cases hj : joinSepStr sty = ""
    · rw [if_pos hj]
      rcases joinSepStr_eq_empty hj with h | h
      · exact absurd h ht
      · rw [h]
    · rw [if_neg hj]
      exact pySplitStr_joinSepStr sty ht hct
  have hsubj : (if joinSepStr ssu = "" then [""] else pySplitStr (joinSepStr ssu)) = ssu := by
    by_cases hj : joinSepStr ssu = ""
    · rw [if_pos hj]
      rcases joinSepStr_eq_empty hj with h | h
      · exact absurd h hs
      · rw [h]
    · rw [if_neg hj]
      exact pySplitStr_joinSepStr ssu hs hcs
  simp [htype, hsubj]

/-- Witness for C6 (amended) at a concrete record with non-empty
multi-valued fields. -/
theorem roundtrip_nonempty_w :
    reExtractSpec (recordChildren (toCode ⟨"i", "t", "d", ["Art", "History"], ["S1"]⟩)) =
      ⟨"i", "t", "d", ["Art", "History"], ["S1"]⟩ :=
  roundtrip_nonempty ⟨"i", "t", "d", ["Art", "History"], ["S1"]⟩
    (by decide) (by decide) (by decide) (by decide)

/-! # C2 -/

/-- C2: along any finished harvest, consecutive requests are linked
exactly by the resumption token: a follow-up request exists only when
the previous page's `resumptionToken` element is present with text, and
then its parameters are exactly
`{verb: "ListRecords", resumptionToken: token}` — never `set` or
`metadataPrefix`; moreover (without a record cap) a `ListRecords` run
that returns records ends on a page whose token is absent or text-less. -/
theorem followup_params_exact (server : Params → HttpResponse) (limit : Option Int)
    (fuel : Nat) (p : Params) (acc : List Record) (ps : List Params)
    (res : Except HarvestError FetchOk)
    (h : harvestLoop server limit fuel p acc = some (ps, res)) :
    ps.head? = some p ∧
    List.Chain' (fun a b =>
      tokenOf (server a).body ≠ none ∧
      b = ⟨"ListRecords", none, none, tokenOf (server a).body⟩) ps ∧
    (limit = none → p.verb = "ListRecords" →
      ∀ rs, res = .ok (.records rs) →
        ∀ q, ps.getLast? = some q → tokenOf (server q).body = none) := by
  induction fuel generalizing p acc ps res with
  | zero => simp [harvestLoop] at h
  | succ n ih =>
      rw [harvestLoop] at h
      split at h
      · -- non-200 status
        obtain ⟨hps, hres⟩ := Prod.mk.injEq .. ▸ (Option.some.injEq _ _ ▸ h)
        subst hps
        refine ⟨rfl, List.chain'_singleton _, ?_⟩
        intro _ _ rs hrs
        rw [← hres] at hrs
        simp at hrs
      · split at h
        · -- ListRecords branch
          split at h
          next acc' heq =>
            -- limit stop
            obtain ⟨hps, hres⟩ := Prod.mk.injEq .. ▸ (Option.some.injEq _ _ ▸ h)
            subst hps
            refine ⟨rfl, List.chain'_singleton _, ?_⟩
            intro hlim _ rs _
            subst hlim
            rw [accumulate_none] at heq
            simp at heq
          next acc' heq =>
            split at h
            next htok =>
              -- token absent or text-less: last page
              obtain ⟨hps, hres⟩ := Prod.mk.injEq .. ▸ (Option.some.injEq _ _ ▸ h)
              subst hps
              refine ⟨rfl, List.chain'_singleton _, ?_⟩
              intro _ _ rs _ q hq
              simp at hq
              rw [← hq]
              exact htok
            next t htok =>
              -- follow-up request issued
              split at h
              · exact absurd h (by simp)
              next ps' r' hinner =>
                obtain ⟨hps, hres⟩ := Prod.mk.injEq .. ▸ (Option.some.injEq _ _ ▸ h)
                subst hps hres
                obtain ⟨hhead', hchain', hlast'⟩ := ih _ _ _ _ hinner
                have hne : ps' ≠ [] := harvestLoop_trace_ne_nil _ _ _ _ _ _ _ hinner
                refine ⟨rfl, ?_, ?_⟩
                · rw [List.chain'_cons']
                  refine ⟨?_, hchain'⟩
                  intro y hy
                  rw [hhead'] at hy
                  simp at hy
                  subst hy
                  rw [htok]
                  exact ⟨by simp, rfl⟩
                · intro hlim _ rs hrs q hq
                  rcases ps' with _ | ⟨a, l⟩
                  · exact absurd rfl hne
                  · rw [List.getLast?_cons_cons] at hq
                    exact hlast' hlim rfl rs hrs q hq
        · -- other verbs
          obtain ⟨hps, hres⟩ := Prod.mk.injEq .. ▸ (Option.some.injEq _ _ ▸ h)
          subst hps
          refine ⟨rfl, List.chain'_singleton _, ?_⟩
          intro _ _ rs hrs
          rw [← hres] at hrs
          simp at hrs

/-- Witness for C2 on the spec's scenario: page 1 carries two records
and token `"T1"`, page 2 one record and no token; the run issues exactly
two requests, yields three records, and the second request's parameters
are exactly `{verb: "ListRecords", resumptionToken: "T1"}`. -/
theorem followup_params_exact_w :
    ([startParams, followupT1].head? = some startParams) ∧
    List.Chain' (fun a b =>
      tokenOf (twoPageServer a).body ≠ none ∧
      b = ⟨"ListRecords", none, none, tokenOf (twoPageServer a).body⟩)
      [startParams, followupT1] ∧
    ((none : Option Int) = none → startParams.verb = "ListRecords" →
      ∀ rs, (Except.ok (FetchOk.records [fullRecord, fullRecord, fullRecord])
              : Except HarvestError FetchOk) = .ok (.records rs) →
        ∀ q, [startParams, followupT1].getLast? = some q →
          tokenOf (twoPageServer q).body = none) :=
  followup_params_exact twoPageServer none 10 startParams []
    [startParams, followupT1]
    (.ok (.records [fullRecord, fullRecord, fullRecord])) rfl

/-! # C3 -/

theorem harvestLoop_isSome_acc (server : Params → HttpResponse) (fuel : Nat)
    (p : Params) (acc acc' : List Record)
    (h : (harvestLoop server none fuel p acc).isSome) :
    (harvestLoop server none fuel p acc').isSome := by
  induction fuel generalizing p acc acc' with
  | zero => simp [harvestLoop] at h
  | succ n ih =>
      rw [harvestLoop] at h ⊢
      by_cases hst : (server p).status ≠ 200
      · simp [hst]
      · by_cases hv : p.verb = "ListRecords"
        · simp only [hst, hv, if_true, if_false, if_neg, if_pos, ite_false, ite_true,
            accumulate_none] at h ⊢
          cases htok : tokenOf (server p).body with
          | none => simp [htok]
          | some t =>
              simp only [htok] at h ⊢
              cases hin : harvestLoop server none n
                  ⟨"ListRecords", none, none, some t⟩
                  (acc ++ extractNested (server p).body) with
              | none => rw [hin] at h; simp at h
              | some pr =>
                  have h2 : (harvestLoop server none n
                      ⟨"ListRecords", none, none, some t⟩
                      (acc' ++ extractNested (server p).body)).isSome :=
                    ih _ _ _ (by rw [hin]; rfl)
                  cases hin' : harvestLoop server none n
                      ⟨"ListRecords", none, none, some t⟩
                      (acc' ++ extractNested (server p).body) with
                  | none => rw [hin'] at h2; simp at h2
                  | some pr' => cases pr'; rfl
        · simp [hst, hv]

theorem harvestLoop_reaches_ctrl (server : Params → HttpResponse) :
    ∀ (fuel : Nat) (p : Params) (acc : List Record)
      (res : List Params × Except HarvestError FetchOk),
      p.verb = "ListRecords" → harvestLoop server none fuel p acc = some res →
      ∃ n, ctrlIter server n p = none := by
  intro fuel
  induction fuel with
  | zero => intro p acc res _ h; simp [harvestLoop] at h
  | succ n ih =>
      intro p acc res hv h
      by_cases hst : (server p).status ≠ 200
      · exact ⟨1, by simp [ctrlIter, ctrlNext, hst]⟩
      · cases htok : tokenOf (server p).body with
        | none => exact ⟨1, by simp [ctrlIter, ctrlNext, hst, htok]⟩
        | some t =>
            rw [harvestLoop_step_token server n p acc t hst hv htok] at h
            cases hin : harvestLoop server none n
                ⟨"ListRecords", none, none, some t⟩
                (acc ++ extractNested (server p).body) with
            | none => rw [hin] at h; simp at h
            | some pr =>
                obtain ⟨m, hm⟩ := ih _ _ _ rfl hin
                refine ⟨m + 1, ?_⟩
                rw [ctrlIter]
                have hc : ctrlNext server p =
                    some ⟨"ListRecords", none, none, some t⟩ := by
                  simp [ctrlNext, hst, htok]
                rw [hc]
                exact hm

theorem ctrl_reaches_harvestLoop (server : Params → HttpResponse) :
    ∀ (n : Nat) (p : Params), p.verb = "ListRecords" →
      ctrlIter server n p = none →
      ∃ fuel res, harvestLoop server none fuel p [] = some res := by
  intro n
  induction n with
  | zero => intro p _ h; simp [ctrlIter] at h
  | succ n ih =>
      intro p hv h
      rw [ctrlIter] at h
      cases hc : ctrlNext server p with
      | none =>
          by_cases hst : (server p).status ≠ 200
          · exact ⟨1, _, by rw [harvestLoop, if_pos hst]⟩
          · have htok : tokenOf (server p).body = none := by
              rw [ctrlNext, if_neg hst] at hc
              cases htok : tokenOf (server p).body with
              | none => rfl
              | some t => rw [htok] at hc; simp at hc
            refine ⟨1, ([p], .ok (.records ([] ++ extractNested (server p).body))), ?_⟩
            rw [harvestLoop, if_neg hst, if_pos hv, accumulate_none, htok]
      | some q =>
          rw [hc] at h
          have hst : ¬(server p).status ≠ 200 := by
            by_contra hst
            rw [ctrlNext, if_pos hst] at hc
            simp at hc
          obtain ⟨t, htok, hq⟩ : ∃ t, tokenOf (server p).body = some t ∧
              q = ⟨"ListRecords", none, none, some t⟩ := by
            rw [ctrlNext, if_neg hst] at hc
            cases htok : tokenOf (server p).body with
            | none => rw [htok] at hc; simp at hc
            | some t => rw [htok] at hc; exact ⟨t, rfl, by simpa using hc.symm⟩
          obtain ⟨fuel, res, hf⟩ := ih q (by rw [hq]) h
          have his : (harvestLoop server none fuel q
              (extractNested (server p).body)).isSome :=
            harvestLoop_isSome_acc server fuel q [] _ (by rw [hf]; rfl)
          cases hin : harvestLoop server none fuel q
              (extractNested (server p).body) with
          | none => rw [hin] at his; simp at his
          | some pr =>
              obtain ⟨ps1, r1⟩ := pr
              refine ⟨fuel + 1, (p :: ps1, r1), ?_⟩
              rw [harvestLoop_step_token server fuel p [] t hst hv htok,
                List.nil_append, ← hq, hin]

/-- C3 (amended): without a record cap, the pagination loop terminates
if and only if the chain of control states — follow the resumption token
of each 200-response — reaches, in finitely many steps, a non-200
response or a page whose token is absent or text-less.  (The code keeps
no memory of past tokens, so nothing rules out an infinite run when a
server keeps re-issuing tokens; see the counterexample.) -/
theorem pagination_terminates_iff (server : Params → HttpResponse) (p : Params)
    (hv : p.verb = "ListRecords") :
    (∃ fuel res, harvestLoop server none fuel p [] = some res) ↔
    (∃ n, ctrlIter server n p = none) := by
  constructor
  · rintro ⟨fuel, res, h⟩
    exact harvestLoop_reaches_ctrl server fuel p [] res hv h
  · rintro ⟨n, h⟩
    exact ctrl_reaches_harvestLoop server n p hv h

/-- Witness for C3 (amended) on the two-page scenario. -/
theorem pagination_terminates_iff_w :
    (∃ fuel res, harvestLoop twoPageServer none fuel startParams [] = some res) ↔
    (∃ n, ctrlIter twoPageServer n startParams = none) :=
  pagination_terminates_iff twoPageServer startParams rfl

theorem repeatingServer_runs_forever (fuel : Nat) :
    ∀ (p : Params) (acc : List Record), p.verb = "ListRecords" →
      harvestLoop repeatingServer none fuel p acc = none := by
  induction fuel with
  | zero => intro p acc _; rfl
  | succ n ih =>
      intro p acc hv
      have hst : ¬(repeatingServer p).status ≠ 200 := by simp [repeatingServer]
      have htok : tokenOf (repeatingServer p).body = some "T1" := rfl
      rw [harvestLoop_step_token repeatingServer n p acc "T1" hst hv htok]
      rw [ih ⟨"ListRecords", none, none, some "T1"⟩ _ rfl]

/-- Counterexample to C3 as stated: a server that answers every request
with HTTP 200, no records, and the same resumption token `"T1"` — one
distinct token in total — makes the loop run forever: no amount of fuel
makes it return. -/
theorem repeated_token_loops :
    ¬ ∃ (fuel : Nat) (res : List Params × Except HarvestError FetchOk),
        harvestLoop repeatingServer none fuel startParams [] = some res := by
  rintro ⟨fuel, res, h⟩
  rw [repeatingServer_runs_forever fuel startParams [] rfl] at h
  simp at h

/-! # C4 -/

/-- Counterexample to C4 as stated: `test_limit = 0` is falsy in Python
(`if test_limit and ...`), so a record limit of `k = 0` disables the cap
entirely: the two-page scenario returns all 3 records, not
`min(0, 3) = 0`. -/
theorem limit_zero_counterexample :
    harvestLoop twoPageServer (some 0) 10 startParams [] =
      some ([startParams, followupT1],
            .ok (.records [fullRecord, fullRecord, fullRecord])) ∧
    min (0 : Nat) 3 = 0 :=
  ⟨rfl, rfl⟩

/-- Step lemma: verbs other than `ListRecords` return the raw page. -/
theorem harvestLoop_step_raw (server : Params → HttpResponse)
    (limit : Option Int) (n : Nat) (p : Params) (acc : List Record)
    (hst : ¬(server p).status ≠ 200) (hv : ¬p.verb = "ListRecords") :
    harvestLoop server limit (n + 1) p acc =
      some ([p], .ok (.raw (server p).body)) := by
  rw [harvestLoop, if_neg hst, if_neg hv]

/-- Step lemma: the record cap fires inside the extraction loop. -/
theorem harvestLoop_step_stop (server : Params → HttpResponse)
    (limit : Option Int) (n : Nat) (p : Params) (acc acc' : List Record)
    (hst : ¬(server p).status ≠ 200) (hv : p.verb = "ListRecords")
    (hacc : accumulate limit acc (extractNested (server p).body) = (acc', true)) :
    harvestLoop server limit (n + 1) p acc = some ([p], .ok (.records acc')) := by
  rw [harvestLoop, if_neg hst, if_pos hv, hacc]

/-- Step lemma: no cap stop and no token ends the run. -/
theorem harvestLoop_step_go_none (server : Params → HttpResponse)
    (limit : Option Int) (n : Nat) (p : Params) (acc acc' : List Record)
    (hst : ¬(server p).status ≠ 200) (hv : p.verb = "ListRecords")
    (hacc : accumulate limit acc (extractNested (server p).body) = (acc', false))
    (htok : tokenOf (server p).body = none) :
    harvestLoop server limit (n + 1) p acc = some ([p], .ok (.records acc')) := by
  rw [harvestLoop, if_neg hst, if_pos hv, hacc, htok]

/-- Step lemma: no cap stop and a token recurses on the token request. -/
theorem harvestLoop_step_go_token (server : Params → HttpResponse)
    (limit : Option Int) (n : Nat) (p : Params) (acc acc' : List Record)
    (t : String) (hst : ¬(server p).status ≠ 200) (hv : p.verb = "ListRecords")
    (hacc : accumulate limit acc (extractNested (server p).body) = (acc', false))
    (htok : tokenOf (server p).body = some t) :
    harvestLoop server limit (n + 1) p acc =
      match harvestLoop server limit n ⟨"ListRecords", none, none, some t⟩ acc' with
      | none => none
      | some (ps, r) => some (p :: ps, r) := by
  rw [harvestLoop, if_neg hst, if_pos hv, hacc, htok]

/-- How `accumulate` behaves under an active positive cap that is not
yet reached: it stops exactly when the accumulated length reaches the
cap, truncating there. -/
theorem accumulate_some (k : Int) (hk : 1 ≤ k) :
    ∀ (new acc : List Record), (acc.length : Int) < k →
      accumulate (some k) acc new =
        if (acc.length : Int) + new.length ≥ k
        then ((acc ++ new).take k.toNat, true)
        else (acc ++ new, false) := by
  intro new
  induction new with
  | nil =>
      intro acc hlen
      rw [if_neg (by simpa using hlen)]
      simp [accumulate]
  | cons r rs ih =>
      intro acc hlen
      simp only [accumulate, Option.getD_some]
      have hact : limitActive (some k) = true := by
        simp only [limitActive, decide_eq_true_eq]
        omega
      have hlen1 : ((acc ++ [r]).length : Int) = (acc.length : Int) + 1 := by
        simp
      by_cases hc1 : (acc.length : Int) + 1 ≥ k
      · rw [if_pos ⟨hact, by rw [hlen1]; exact hc1⟩]
        have hkeq : k.toNat = acc.length + 1 := by omega
        rw [if_pos (by simp only [List.length_cons]; push_cast; omega)]
        rw [hkeq]
        have htake : (acc ++ r :: rs).take (acc.length + 1) = acc ++ (r :: rs).take 1 :=
          List.take_append 1
        simp only [List.take_succ_cons, List.take_zero] at htake
        rw [htake]
      · rw [if_neg (by
          rintro ⟨-, hge⟩
          rw [hlen1] at hge
          exact hc1 hge)]
        rw [ih (acc ++ [r]) (by rw [hlen1]; omega)]
        have hassoc : (acc ++ [r]) ++ rs = acc ++ r :: rs := by simp
        by_cases hc2 : (acc.length : Int) + ((r :: rs).length : Int) ≥ k
        · rw [if_pos (by
              rw [hlen1]
              simp only [List.length_cons] at hc2
              push_cast at hc2 ⊢
              omega),
            if_pos hc2, hassoc]
        · rw [if_neg (by
              rw [hlen1]
              simp only [List.length_cons] at hc2
              push_cast at hc2 ⊢
              omega),
            if_neg hc2, hassoc]

theorem pageRecords_nil (server : Params → HttpResponse) :
    pageRecords server [] = 0 := rfl

theorem pageRecords_cons (server : Params → HttpResponse) (p : Params)
    (l : List Params) :
    pageRecords server (p :: l) =
      (extractNested (server p).body).length + pageRecords server l := by
  simp [pageRecords]

/-- An uncapped run only ever appends to the accumulator. -/
theorem harvestLoop_none_acc_prefix (server : Params → HttpResponse) :
    ∀ (fuel : Nat) (p : Params) (acc : List Record) (ps : List Params)
      (recs : List Record),
      harvestLoop server none fuel p acc = some (ps, .ok (.records recs)) →
      acc <+: recs := by
  intro fuel
  induction fuel with
  | zero => intro p acc ps recs h; simp [harvestLoop] at h
  | succ n ih =>
      intro p acc ps recs h
      by_cases hst : (server p).status ≠ 200
      · rw [harvestLoop_step_error server none n p acc hst] at h
        simp at h
      · by_cases hv : p.verb = "ListRecords"
        · cases htok : tokenOf (server p).body with
          | none =>
              rw [harvestLoop_step_last server n p acc hst hv htok] at h
              simp only [Option.some.injEq, Prod.mk.injEq] at h
              obtain ⟨-, hres⟩ := h
              have : acc ++ extractNested (server p).body = recs := by
                injection hres with h1
                injection h1
              rw [← this]
              exact List.prefix_append _ _
          | some t =>
              rw [harvestLoop_step_token server n p acc t hst hv htok] at h
              cases hin : harvestLoop server none n
                  ⟨"ListRecords", none, none, some t⟩
                  (acc ++ extractNested (server p).body) with
              | none => rw [hin] at h; simp at h
              | some pr =>
                  obtain ⟨ps1, r1⟩ := pr
                  rw [hin] at h
                  simp only [Option.some.injEq, Prod.mk.injEq] at h
                  obtain ⟨-, hres⟩ := h
                  rw [hres] at hin
                  have hpre := ih _ _ _ _ hin
                  exact ((List.prefix_append acc _).trans hpre)
        · rw [harvestLoop_step_raw server none n p acc hst hv] at h
          simp at h

/-- Every finished run's trace starts with the initial request. -/
theorem harvestLoop_head (server : Params → HttpResponse) (limit : Option Int)
    (fuel : Nat) (p : Params) (acc : List Record) (ps : List Params)
    (res : Except HarvestError FetchOk)
    (h : harvestLoop server limit fuel p acc = some (ps, res)) :
    ∃ tl, ps = p :: tl := by
  cases fuel with
  | zero => simp [harvestLoop] at h
  | succ n =>
      rw [harvestLoop] at h
      split at h
      · simp at h; exact ⟨[], h.1.symm⟩
      · split at h
        · split at h
          · simp at h; exact ⟨[], h.1.symm⟩
          · split at h
            · simp at h; exact ⟨[], h.1.symm⟩
            · split at h
              · simp at h
              · simp at h; exact ⟨_, h.1.symm⟩
        · simp at h; exact ⟨[], h.1.symm⟩

/-- Simulation of a capped run against the uncapped run, generalized
over the accumulator. -/
theorem harvestLoop_cap_sim (server : Params → HttpResponse) (k : Int) (hk : 1 ≤ k) :
    ∀ (fuel : Nat) (p : Params) (acc : List Record) (ps : List Params)
      (recs : List Record),
      harvestLoop server none fuel p acc = some (ps, .ok (.records recs)) →
      (acc.length : Int) < k →
      ∃ ps', harvestLoop server (some k) fuel p acc =
          some (ps', .ok (.records (recs.take k.toNat))) ∧
        ps' <+: ps ∧
        (acc.length : Int) + (pageRecords server ps'.dropLast : Int) < k := by
  intro fuel
  induction fuel with
  | zero => intro p acc ps recs h hlen; simp [harvestLoop] at h
  | succ n ih =>
      intro p acc ps recs h hlen
      by_cases hst : (server p).status ≠ 200
      · rw [harvestLoop_step_error server none n p acc hst] at h
        simp at h
      · by_cases hv : p.verb = "ListRecords"
        swap
        · rw [harvestLoop_step_raw server none n p acc hst hv] at h
          simp at h
        · obtain ⟨tl, htl⟩ := harvestLoop_head server none (n + 1) p acc ps _ h
          by_cases hcap :
              (acc.length : Int) + (extractNested (server p).body).length ≥ k
          · -- the cap fires inside this page
            have hacc : accumulate (some k) acc (extractNested (server p).body) =
                ((acc ++ extractNested (server p).body).take k.toNat, true) := by
              rw [accumulate_some k hk _ acc hlen, if_pos hcap]
            have hpre : (acc ++ extractNested (server p).body) <+: recs := by
              cases htok : tokenOf (server p).body with
              | none =>
                  rw [harvestLoop_step_last server n p acc hst hv htok] at h
                  simp only [Option.some.injEq, Prod.mk.injEq] at h
                  obtain ⟨-, hres⟩ := h
                  have hr : acc ++ extractNested (server p).body = recs := by
                    injection hres with h1
                    injection h1
                  rw [hr]
              | some t =>
                  rw [harvestLoop_step_token server n p acc t hst hv htok] at h
                  cases hin : harvestLoop server none n
                      ⟨"ListRecords", none, none, some t⟩
                      (acc ++ extractNested (server p).body) with
                  | none => rw [hin] at h; simp at h
                  | some pr =>
                      obtain ⟨ps1, r1⟩ := pr
                      rw [hin] at h
                      simp only [Option.some.injEq, Prod.mk.injEq] at h
                      obtain ⟨-, hres⟩ := h
                      rw [hres] at hin
                      exact harvestLoop_none_acc_prefix server n _ _ _ _ hin
            have htake : recs.take k.toNat =
                (acc ++ extractNested (server p).body).take k.toNat := by
              obtain ⟨tail, rfl⟩ := hpre
              rw [List.take_append_of_le_length (by
                simp only [List.length_append]
                omega)]
            refine ⟨[p], ?_, ?_, ?_⟩
            · rw [harvestLoop_step_stop server (some k) n p acc _ hst hv hacc,
                htake]
            · rw [htl]
              exact (List.prefix_cons_inj p).mpr List.nil_prefix
            · simp only [List.dropLast_single, pageRecords_nil, Nat.cast_zero,
                add_zero]
              omega
          · -- the cap is not reached on this page
            have hacc : accumulate (some k) acc (extractNested (server p).body) =
                (acc ++ extractNested (server p).body, false) := by
              rw [accumulate_some k hk _ acc hlen, if_neg hcap]
            cases htok : tokenOf (server p).body with
            | none =>
                rw [harvestLoop_step_last server n p acc hst hv htok] at h
                simp only [Option.some.injEq, Prod.mk.injEq] at h
                obtain ⟨hps, hres⟩ := h
                have hr : acc ++ extractNested (server p).body = recs := by
                  injection hres with h1
                  injection h1
                refine ⟨[p], ?_, ?_, ?_⟩
                · rw [harvestLoop_step_go_none server (some k) n p acc _ hst hv
                    hacc htok, ← hr,
                    List.take_of_length_le (by
                      simp only [List.length_append]
                      omega)]
                · rw [← hps]
                · simp only [List.dropLast_single, pageRecords_nil,
                    Nat.cast_zero, add_zero]
                  omega
            | some t =>
                rw [harvestLoop_step_token server n p acc t hst hv htok] at h
                cases hin : harvestLoop server none n
                    ⟨"ListRecords", none, none, some t⟩
                    (acc ++ extractNested (server p).body) with
                | none => rw [hin] at h; simp at h
                | some pr =>
                    obtain ⟨ps1, r1⟩ := pr
                    rw [hin] at h
                    simp only [Option.some.injEq, Prod.mk.injEq] at h
                    obtain ⟨hps, hres⟩ := h
                    rw [hres] at hin
                    obtain ⟨ps2, hcapped, hpre2, hsum⟩ :=
                      ih ⟨"ListRecords", none, none, some t⟩
                        (acc ++ extractNested (server p).body) ps1 recs hin
                        (by
                          simp only [List.length_append]
                          push_cast
                          omega)
                    have hne2 : ps2 ≠ [] :=
                      harvestLoop_trace_ne_nil server (some k) n _ _ _ _ hcapped
                    refine ⟨p :: ps2, ?_, ?_, ?_⟩
                    · rw [harvestLoop_step_go_token server (some k) n p acc _ t
                        hst hv hacc htok, hcapped]
                    · rw [← hps]
                      exact (List.prefix_cons_inj p).mpr hpre2
                    · rw [List.dropLast_cons_of_ne_nil hne2, pageRecords_cons]
                      simp only [List.length_append] at hsum
                      push_cast at hsum ⊢
                      omega

/-- C4 (amended): for every record limit `k ≥ 1`, the capped harvest
returns exactly the first `min(k, totalAvailable)` records of the
uncapped harvest, issues a prefix of the uncapped run's requests, and
issues no request once the cap is reached: strictly fewer than `k`
records had arrived before its last request.  (`k = 0` — like `None` —
is falsy in Python and disables the cap entirely; see the
counterexample.) -/
theorem limit_cap (server : Params → HttpResponse) (fuel : Nat) (p : Params)
    (ps : List Params) (recs : List Record) (k : Int)
    (h : harvestLoop server none fuel p [] = some (ps, .ok (.records recs)))
    (hk : 1 ≤ k) :
    ∃ ps', harvestLoop server (some k) fuel p [] =
        some (ps', .ok (.records (recs.take k.toNat))) ∧
      (recs.take k.toNat).length = min k.toNat recs.length ∧
      ps' <+: ps ∧ (pageRecords server ps'.dropLast : Int) < k := by
  obtain ⟨ps', h1, h2, h3⟩ :=
    harvestLoop_cap_sim server k hk fuel p [] ps recs h (by simp; omega)
  refine ⟨ps', h1, List.length_take .., h2, ?_⟩
  simpa using h3

/-- Witness for C4 with `k = 2` on the two-page scenario: the capped run
returns the first two records and stops after the first request. -/
theorem limit_cap_w :
    ∃ ps', harvestLoop twoPageServer (some 2) 10 startParams [] =
        some (ps', .ok (.records
          ([fullRecord, fullRecord, fullRecord].take (2 : Int).toNat))) ∧
      ([fullRecord, fullRecord, fullRecord].take (2 : Int).toNat).length =
        min (2 : Int).toNat [fullRecord, fullRecord, fullRecord].length ∧
      ps' <+: [startParams, followupT1] ∧
      (pageRecords twoPageServer ps'.dropLast : Int) < 2 :=
  limit_cap twoPageServer 10 startParams [startParams, followupT1]
    [fullRecord, fullRecord, fullRecord] 2 rfl (by norm_num)
